import Mathlib

/-!
Shallow embedding of the patchpilot context assembler and streaming session
(`src/Patchpilot/context/manager.py`, `src/Patchpilot/client/nvidia.py`,
`src/Patchpilot/session/manager.py`).

Python strings are modelled as `List Char`; Python's slicing with possibly
negative indices is modelled explicitly (`pySliceFrom`, `pyLast`), since the
sign conventions of CPython slices matter for several properties below.
Mutating methods are modelled as state-passing functions on `ContextManager`.
`os.path.abspath` is an external collaborator and is passed in as an
uninterpreted function parameter wherever the source calls it.
-/

/-- `Message` dataclass: `role` and `content` fields. -/
structure Message where
  role : String
  content : List Char
deriving DecidableEq, Repr

/-- `Message.token_estimate`: `max(1, len(self.content) // 4)`. -/
def Message.token_estimate (m : Message) : Nat :=
  max 1 (m.content.length / 4)

/-- `Message.to_dict`: `{"role": self.role, "content": self.content}`. -/
def Message.to_dict (m : Message) : String × List Char :=
  (m.role, m.content)

/-- `startsWithL pat s` models Python `s.startswith(pat)` on char lists. -/
def startsWithL : List Char → List Char → Bool
  | [], _ => true
  | _ :: _, [] => false
  | a :: pat, b :: s => a == b && startsWithL pat s

/-- `containsSub pat s` models Python `pat in s` (substring test). -/
def containsSub (pat : List Char) : List Char → Bool
  | [] => startsWithL pat []
  | c :: s => startsWithL pat (c :: s) || containsSub pat s

/-- Python `s[i:]` for an `Int` index `i`: a negative index counts from the
end and is clamped at the start of the string. -/
def pySliceFrom (s : List Char) (i : Int) : List Char :=
  if 0 ≤ i then s.drop i.toNat else s.drop ((s.length : Int) + i).toNat

/-- Python `l[-k:]` for a `Nat` count `k`.  CPython's `-0 == 0`, so `k = 0`
yields the whole list, not the empty suffix. -/
def pyLast (k : Nat) (l : List Message) : List Message :=
  if k = 0 then l else l.drop (l.length - k)

/-- The inline truncation marker inserted by `_apply_file_budget`. -/
def truncMarker : List Char :=
  "\n\n/* ...TRUNCATED... (tail follows) */\n\n".toList

/-- The `"[PROJECT_FILE] "` tag prefix used by the file layer. -/
def projectFileTag : List Char :=
  "[PROJECT_FILE] ".toList

/-- `ContextManager` state: system message, the three budget constants, the
file layer, the conversation layer and the pinned-path set (modelled as a
duplicate-free list). -/
structure ContextManager where
  system : Message
  max_total : Nat
  max_file_tokens : Nat
  max_convo : Nat
  file_messages : List Message
  convo_messages : List Message
  pinned_files : List (List Char)
deriving DecidableEq, Repr

/-- `ContextManager.__init__(system_prompt, max_total_tokens, max_file_tokens,
max_convo_messages)`. -/
def ContextManager.init (system_prompt : List Char)
    (max_total_tokens max_file_tokens max_convo_messages : Nat) : ContextManager :=
  { system := ⟨"system", system_prompt⟩
    max_total := max_total_tokens
    max_file_tokens := max_file_tokens
    max_convo := max_convo_messages
    file_messages := []
    convo_messages := []
    pinned_files := [] }

/-- `ContextManager._apply_file_budget`: head+tail chunking of `content` to
the per-file character budget.  The tail is Python `content[-(half - 100):]`,
whose index is only effectively "last `half - 100` characters" when
`half > 100`. -/
def ContextManager.apply_file_budget (max_file_tokens : Nat) (content : List Char) : List Char :=
  let max_chars := max_file_tokens * 4
  if content.length ≤ max_chars then content
  else
    let half := max_chars / 2
    let head := content.take half
    let tl := pySliceFrom content (-((half : Int) - 100))
    head ++ truncMarker ++ tl

/-- The removal predicate of `upsert_file`/`remove_file`:
`m.content.startswith(tag + "\n")` with `tag = "[PROJECT_FILE] " + path`. -/
def matchesTag (path : List Char) (m : Message) : Bool :=
  startsWithL (projectFileTag ++ path ++ ['\n']) m.content

/-- `ContextManager.upsert_file(path, content)`: drop every message whose
content starts with the path's tag line, then append the freshly budgeted
entry at the end of the file layer. -/
def ContextManager.upsert_file (st : ContextManager) (path content : List Char) : ContextManager :=
  { st with file_messages :=
      (st.file_messages.filter (fun m => !(matchesTag path m))) ++
        [⟨"user", projectFileTag ++ path ++ ['\n'] ++
            ContextManager.apply_file_budget st.max_file_tokens content⟩] }

/-- `ContextManager.remove_file(path, force)`.  The source first rebinds
`path = os.path.abspath(path)`; `abspathF` models that external call. -/
def ContextManager.remove_file (abspathF : List Char → List Char) (st : ContextManager)
    (path : List Char) (force : Bool) : ContextManager × Bool :=
  let p := abspathF path
  if st.pinned_files.contains p && !force then (st, false)
  else
    ({ st with
        file_messages := st.file_messages.filter (fun m => !(matchesTag p m))
        pinned_files := st.pinned_files.filter (fun q => q ≠ p) }, true)

/-- `ContextManager.is_pinned(path)`: membership of `abspath(path)` in the
pinned set. -/
def ContextManager.is_pinned (abspathF : List Char → List Char) (st : ContextManager)
    (path : List Char) : Bool :=
  st.pinned_files.contains (abspathF path)

/-- `ContextManager.pin_file(path)`: pin succeeds only when a live file entry
carries the canonicalized path's tag line. -/
def ContextManager.pin_file (abspathF : List Char → List Char) (st : ContextManager)
    (path : List Char) : ContextManager × Bool :=
  let p := abspathF path
  if st.file_messages.any (fun m => matchesTag p m) then
    (if st.pinned_files.contains p then (st, true)
     else ({ st with pinned_files := st.pinned_files ++ [p] }, true))
  else (st, false)

/-- `ContextManager.unpin_file(path)`: discard `abspath(path)` from the pinned
set. -/
def ContextManager.unpin_file (abspathF : List Char → List Char) (st : ContextManager)
    (path : List Char) : ContextManager :=
  { st with pinned_files := st.pinned_files.filter (fun q => q ≠ abspathF path) }

/-- `ContextManager._trim_convo`: keep `self._convo_messages[-max_convo:]`
when the length exceeds `max_convo`. -/
def ContextManager.trim_convo (st : ContextManager) : ContextManager :=
  if st.max_convo < st.convo_messages.length then
    { st with convo_messages := pyLast st.max_convo st.convo_messages }
  else st

/-- `ContextManager.add_user(content)`. -/
def ContextManager.add_user (st : ContextManager) (content : List Char) : ContextManager :=
  ContextManager.trim_convo
    { st with convo_messages := st.convo_messages ++ [⟨"user", content⟩] }

/-- `ContextManager.add_assistant(content)`. -/
def ContextManager.add_assistant (st : ContextManager) (content : List Char) : ContextManager :=
  ContextManager.trim_convo
    { st with convo_messages := st.convo_messages ++ [⟨"assistant", content⟩] }

/-- `ContextManager.reset_convo()`. -/
def ContextManager.reset_convo (st : ContextManager) : ContextManager :=
  { st with convo_messages := [] }

/-- Sum of `token_estimate` over a message list. -/
def sumTokens : List Message → Nat
  | [] => 0
  | m :: rest => m.token_estimate + sumTokens rest

/-- The ephemeral singleton of `build_messages`: Python's
`[Message("user", e)] if ephemeral_user_content else []` — both `None` and
the empty string are falsy. -/
def ephemeralList : Option (List Char) → List Message
  | some s => if s = [] then [] else [⟨"user", s⟩]
  | none => []

/-- The `while total_tokens(convo) > self._max_total and convo: convo.pop(0)`
loop of `build_messages`; `base` is the token cost of the layers the loop
cannot shed (system + files + ephemeral). -/
def dropOldestLoop (max_total base : Nat) : List Message → List Message
  | [] => []
  | m :: rest =>
      if max_total < base + sumTokens (m :: rest) then dropOldestLoop max_total base rest
      else m :: rest

/-- The emergency per-entry rewrite of `build_messages`:
`Message(m.role, self._apply_file_budget(m.content[: self._max_file_tokens * 2]))`. -/
def emergencyFile (max_file_tokens : Nat) (m : Message) : Message :=
  ⟨m.role, ContextManager.apply_file_budget max_file_tokens (m.content.take (max_file_tokens * 2))⟩

/-- `ContextManager.build_messages(ephemeral_user_content)`.  The source only
reads `self` (it copies both layer lists before mutating them), so the
state-passing embedding returns the state alongside the assembled list of
`to_dict` pairs. -/
def ContextManager.build_messages (st : ContextManager) (ephemeral_user_content : Option (List Char)) :
    ContextManager × List (String × List Char) :=
  let ephemeral := ephemeralList ephemeral_user_content
  let base := st.system.token_estimate + sumTokens st.file_messages + sumTokens ephemeral
  let convo := dropOldestLoop st.max_total base st.convo_messages
  let file_msgs :=
    if st.max_total < base + sumTokens convo then
      st.file_messages.map (emergencyFile st.max_file_tokens)
    else st.file_messages
  (st, ([st.system] ++ file_msgs ++ convo ++ ephemeral).map Message.to_dict)

/-- `ContextManager.file_paths()`: the text after `"[PROJECT_FILE] "` on the
first line of each file entry. -/
def ContextManager.file_paths (st : ContextManager) : List (List Char) :=
  st.file_messages.filterMap (fun m =>
    let first_line := m.content.takeWhile (fun c => c ≠ '\n')
    if startsWithL projectFileTag first_line then some (first_line.drop projectFileTag.length)
    else none)

/-- `ContextManager.estimated_total_tokens()`. -/
def ContextManager.estimated_total_tokens (st : ContextManager) : Nat :=
  st.system.token_estimate + sumTokens st.file_messages + sumTokens st.convo_messages

/-- Token estimate of a `to_dict` pair, as `Message.token_estimate` reads it. -/
def pairTokens (p : String × List Char) : Nat :=
  max 1 (p.2.length / 4)

/-- Total token estimate of a built message list. -/
def sumPairTokens : List (String × List Char) → Nat
  | [] => 0
  | p :: rest => pairTokens p + sumPairTokens rest

/-- One streamed fragment (`client/base.py` `StreamChunk`). -/
structure StreamChunk where
  content : List Char
  reasoning : List Char
deriving DecidableEq, Repr

/-- Outcome of one `self._client.chat.completions.create(...)` attempt plus
stream consumption inside `NvidiaProvider.stream`: the parsed chunk list on
success, an `APIConnectionError`/`RateLimitError` (transient), or another
`APIError` (fatal). -/
inductive AttemptOutcome where
  | success (chunks : List StreamChunk)
  | transientFailure (err : List Char)
  | fatalApiFailure (err : List Char)
deriving DecidableEq, Repr

/-- Terminal result of `NvidiaProvider.stream`: the yielded chunks, the
immediate `RuntimeError("API error: ...")`, or the final
`RuntimeError("All ... retries failed: ...")` carrying the last transient
exception (`None` when `max_retries = 0`). -/
inductive StreamResult where
  | ok (chunks : List StreamChunk)
  | apiError (err : List Char)
  | retriesExhausted (lastExc : Option (List Char))
deriving DecidableEq, Repr

/-- Observable trace of `NvidiaProvider.stream`: the backoff sleeps performed
(`time.sleep(wait)` durations, in order) and the terminal result. -/
structure StreamTrace where
  waits : List ℚ
  result : StreamResult
deriving DecidableEq, Repr

/-- The `for attempt in range(self._max_retries)` loop of
`NvidiaProvider.stream`: `remaining` attempts left, `k` the current attempt
index, `lastExc` the last transient exception seen. -/
def streamAttempts (retry_delay : ℚ) (attemptF : Nat → AttemptOutcome) :
    Nat → Nat → Option (List Char) → StreamTrace
  | 0, _, lastExc => ⟨[], .retriesExhausted lastExc⟩
  | Nat.succ remaining, k, _ =>
      match attemptF k with
      | .success chunks => ⟨[], .ok chunks⟩
      | .fatalApiFailure e => ⟨[], .apiError e⟩
      | .transientFailure e =>
          let rest := streamAttempts retry_delay attemptF remaining (k + 1) (some e)
          ⟨retry_delay * 2 ^ k :: rest.waits, rest.result⟩

/-- `NvidiaProvider.stream(messages, temperature, max_tokens)` with the
provider call modelled by `attemptF` (attempt index to outcome); the wait
before retrying attempt `k` is `self._retry_delay * (2 ** attempt)`. -/
def NvidiaProvider.stream (max_retries : Nat) (retry_delay : ℚ)
    (attemptF : Nat → AttemptOutcome) : StreamTrace :=
  streamAttempts retry_delay attemptF max_retries 0 none

/-- How the stream-consumption loop of `SessionManager.send` terminated:
normally, by `KeyboardInterrupt`, or by a `RuntimeError` from the provider. -/
inductive StreamEnd where
  | completed
  | interrupted
  | failed (err : List Char)
deriving DecidableEq, Repr

/-- One call to the `Display` sink. -/
inductive DisplayEvent where
  | reasoning (t : List Char)
  | content (t : List Char)
  | info (t : List Char)
  | error (t : List Char)
  | newline
deriving DecidableEq, Repr

/-- Result of `SessionManager.send`: the context manager after the call, the
returned `Optional[str]`, and the ordered display-sink calls. -/
structure SendResult where
  ctx : ContextManager
  ret : Option (List Char)
  displayed : List DisplayEvent
deriving DecidableEq, Repr

/-- The accumulator update of the streaming loop:
`if chunk.content: full_response += chunk.content`. -/
def accumulateContent (chunks : List StreamChunk) : List Char :=
  chunks.foldl (fun acc ch => if ch.content ≠ [] then acc ++ ch.content else acc) []

/-- Display calls made while consuming the chunks. -/
def displayOfChunks (chunks : List StreamChunk) : List DisplayEvent :=
  chunks.foldl (fun acc ch =>
    acc ++ (if ch.reasoning ≠ [] then [.reasoning ch.reasoning] else []) ++
      (if ch.content ≠ [] then [.content ch.content] else [])) []

/-- Display call made by the terminal event of the loop. -/
def displayOfEnd : StreamEnd → List DisplayEvent
  | .completed => []
  | .interrupted => [.info "\n[Stream interrupted by user]".toList]
  | .failed e => [.error e]

/-- `SessionManager.send(user_message, record_in_history)`.  The provider
stream is modelled by `chunks` (the fragments consumed before the loop
terminated) and `ending` (how it terminated). -/
def SessionManager.send (st : ContextManager) (user_message : List Char)
    (record_in_history : Bool) (chunks : List StreamChunk) (ending : StreamEnd) : SendResult :=
  let st1 := if record_in_history then st.add_user user_message else st
  let _messages := (st1.build_messages
      (if record_in_history then none else some user_message)).2
  let full_response := accumulateContent chunks
  let evs := displayOfChunks chunks ++ displayOfEnd ending ++ [DisplayEvent.newline]
  let st2 := if full_response ≠ [] then st1.add_assistant full_response else st1
  ⟨st2, if full_response = [] then none else some full_response, evs⟩

/-! ## Helper lemmas -/

theorem sumTokens_append (a b : List Message) :
    sumTokens (a ++ b) = sumTokens a + sumTokens b := by
  induction a with
  | nil => simp [sumTokens]
  | cons m rest ih => simp [sumTokens, ih]; ring

theorem sumPairTokens_map_to_dict (l : List Message) :
    sumPairTokens (l.map Message.to_dict) = sumTokens l := by
  induction l with
  | nil => rfl
  | cons m rest ih =>
      simp [sumPairTokens, sumTokens, pairTokens, Message.to_dict, Message.token_estimate, ih]

theorem dropOldestLoop_over_budget_nil (mt base : Nat) (l : List Message)
    (h : mt < base + sumTokens (dropOldestLoop mt base l)) :
    dropOldestLoop mt base l = [] := by
  induction l with
  | nil => rfl
  | cons m rest ih =>
      by_cases hb : mt < base + sumTokens (m :: rest)
      · rw [dropOldestLoop, if_pos hb] at h ⊢
        exact ih h
      · rw [dropOldestLoop, if_neg hb] at h
        omega

theorem startsWithL_append_self (u v : List Char) : startsWithL u (u ++ v) = true := by
  induction u with
  | nil => rfl
  | cons a rest ih => simp [startsWithL, ih]

theorem startsWithL_cancel (x u v : List Char) :
    startsWithL (x ++ u) (x ++ v) = startsWithL u v := by
  induction x with
  | nil => rfl
  | cons a rest ih => simp [startsWithL, ih]

theorem countP_filter_le {α : Type} (p f : α → Bool) (l : List α) :
    (l.filter f).countP p ≤ l.countP p := by
  induction l with
  | nil => simp
  | cons a rest ih =>
      by_cases hf : f a
      · by_cases hp : p a <;> simp [List.filter, List.countP_cons, hf, hp] <;> omega
      · by_cases hp : p a <;>
          simp only [List.filter, List.countP_cons, hf, hp, cond_false, cond_true,
            if_true, if_false] <;> omega

/-! ## C10: `build_messages` does not mutate assembler state -/

/-- C10: `build_messages` never mutates the assembler: the state component of
the state-passing embedding (the source reads `self` only and copies both
layer lists before popping from them) is returned unchanged, for every state
and every (or no) ephemeral user text — system message, file layer,
conversation layer and pin set are all exactly as before the call. -/
theorem claim10_build_messages_no_mutation (st : ContextManager) (eph : Option (List Char)) :
    (st.build_messages eph).1 = st ∧
    (st.build_messages eph).1.system = st.system ∧
    (st.build_messages eph).1.file_messages = st.file_messages ∧
    (st.build_messages eph).1.convo_messages = st.convo_messages ∧
    (st.build_messages eph).1.pinned_files = st.pinned_files :=
  ⟨rfl, rfl, rfl, rfl, rfl⟩

/-! ## C3: upsert of an existing document moves the entry to the end -/

/-- C3 counterexample: after loading documents `a` then `b`, re-upserting `a`
does *not* replace it in place at position 0: the refreshed entry for `a`
ends up at position 1 (the end of the layer), behind `b`. -/
theorem claim3_counterexample :
    ((((ContextManager.init "s".toList 100 100 10).upsert_file
          "a".toList "xa".toList).upsert_file
          "b".toList "xb".toList).file_messages.findIdx
            (fun m => matchesTag "a".toList m) = 0) ∧
    (((((ContextManager.init "s".toList 100 100 10).upsert_file
          "a".toList "xa".toList).upsert_file
          "b".toList "xb".toList).upsert_file
          "a".toList "ya".toList).file_messages.findIdx
            (fun m => matchesTag "a".toList m) = 1) ∧
    (((((ContextManager.init "s".toList 100 100 10).upsert_file
          "a".toList "xa".toList).upsert_file
          "b".toList "xb".toList).upsert_file
          "a".toList "ya".toList).file_messages.length = 2) := by
  refine ⟨?_, ?_, ?_⟩ <;> decide

/-- C3 amended: `upsert_file(id, new_content)` on a state holding an entry for
`id` at position `k` removes that entry and appends the replacement at the
*end* of the document layer (not at position `k`); the relative order of all
other document entries is unchanged. -/
theorem claim3_upsert_removes_then_appends (st : ContextManager) (p c : List Char)
    (A B : List Message) (e : Message)
    (hsplit : st.file_messages = A ++ [e] ++ B)
    (he : matchesTag p e = true)
    (hA : ∀ m ∈ A, matchesTag p m = false)
    (hB : ∀ m ∈ B, matchesTag p m = false) :
    (st.upsert_file p c).file_messages =
      A ++ B ++ [⟨"user", projectFileTag ++ p ++ ['\n'] ++
        ContextManager.apply_file_budget st.max_file_tokens c⟩] := by
  have hfA : A.filter (fun m => !(matchesTag p m)) = A :=
    List.filter_eq_self.mpr (fun m hm => by simp [hA m hm])
  have hfB : B.filter (fun m => !(matchesTag p m)) = B :=
    List.filter_eq_self.mpr (fun m hm => by simp [hB m hm])
  simp [ContextManager.upsert_file, hsplit, List.filter_append, hfA, hfB,
    List.filter, he]

/-- C3 amended-claim witness at a concrete state. -/
theorem claim3_upsert_removes_then_appends_witness :
    ((((ContextManager.init "s".toList 100 100 10).upsert_file "a".toList "xa".toList).upsert_file
        "b".toList "xb".toList).upsert_file "a".toList "ya".toList).file_messages =
      [] ++ [⟨"user", projectFileTag ++ "b".toList ++ ['\n'] ++
          ContextManager.apply_file_budget 100 "xb".toList⟩] ++
        [⟨"user", projectFileTag ++ "a".toList ++ ['\n'] ++
          ContextManager.apply_file_budget 100 "ya".toList⟩] :=
  claim3_upsert_removes_then_appends
    (((ContextManager.init "s".toList 100 100 10).upsert_file "a".toList "xa".toList).upsert_file
        "b".toList "xb".toList)
    "a".toList "ya".toList
    [] [⟨"user", projectFileTag ++ "b".toList ++ ['\n'] ++
          ContextManager.apply_file_budget 100 "xb".toList⟩]
    ⟨"user", projectFileTag ++ "a".toList ++ ['\n'] ++
          ContextManager.apply_file_budget 100 "xa".toList⟩
    (by decide) (by decide) (by decide) (by decide)

/-! ## C6: conversation FIFO bound -/

/-- One interleaved append: `True` is `add_user`, `False` is `add_assistant`. -/
def applyAppends (st : ContextManager) (ops : List (Bool × List Char)) : ContextManager :=
  ops.foldl (fun s op => if op.1 then s.add_user op.2 else s.add_assistant op.2) st

/-- The messages an op sequence appends, in order. -/
def appendedMessages (ops : List (Bool × List Char)) : List Message :=
  ops.map (fun op => ⟨if op.1 then "user" else "assistant", op.2⟩)

theorem trim_convo_max_convo (st : ContextManager) :
    (st.trim_convo).max_convo = st.max_convo := by
  unfold ContextManager.trim_convo; split <;> rfl

theorem trim_convo_convo (st : ContextManager) :
    (st.trim_convo).convo_messages =
      if st.max_convo < st.convo_messages.length then
        pyLast st.max_convo st.convo_messages
      else st.convo_messages := by
  unfold ContextManager.trim_convo; split <;> simp_all

theorem applyAppends_concat (st : ContextManager) (ops : List (Bool × List Char))
    (op : Bool × List Char) :
    applyAppends st (ops ++ [op]) =
      (if op.1 then (applyAppends st ops).add_user op.2
       else (applyAppends st ops).add_assistant op.2) := by
  simp [applyAppends, List.foldl_append]

theorem applyAppends_max_convo (st : ContextManager) (ops : List (Bool × List Char)) :
    (applyAppends st ops).max_convo = st.max_convo := by
  induction ops using List.reverseRecOn with
  | nil => rfl
  | append_singleton ops op ih =>
      rw [applyAppends_concat]
      split <;>
        simp [ContextManager.add_user, ContextManager.add_assistant, trim_convo_max_convo, ih]

theorem trim_append_drop (mc : Nat) (hmc : 1 ≤ mc) (L : List Message) (m : Message) :
    (if mc < (L.drop (L.length - mc) ++ [m]).length then
        pyLast mc (L.drop (L.length - mc) ++ [m])
      else L.drop (L.length - mc) ++ [m]) =
      (L ++ [m]).drop (L.length + 1 - mc) := by
  by_cases hlt : L.length < mc
  · have h1 : L.length - mc = 0 := by omega
    have h2 : L.length + 1 - mc = 0 := by omega
    rw [h1, h2, List.drop_zero, List.drop_zero, if_neg]
    simp [List.length_append]
    omega
  · push_neg at hlt
    have hlen : (L.drop (L.length - mc)).length = mc := by
      rw [List.length_drop]; omega
    have hguard : mc < (L.drop (L.length - mc) ++ [m]).length := by
      simp [List.length_append, hlen]
    rw [if_pos hguard]
    unfold pyLast
    rw [if_neg (by omega : ¬ mc = 0)]
    have hlen2 : (L.drop (L.length - mc) ++ [m]).length - mc = 1 := by
      simp [List.length_append, hlen]
    rw [hlen2,
      List.drop_append_of_le_length (by omega : 1 ≤ (L.drop (L.length - mc)).length),
      List.drop_drop,
      List.drop_append_of_le_length (by omega : L.length + 1 - mc ≤ L.length)]
    have heq : L.length - mc + 1 = L.length + 1 - mc := by omega
    rw [heq]

/-- C6 amended: for every configured maximum `max_convo ≥ 1` and every
sequence of `add_user`/`add_assistant` calls from an empty conversation, the
conversation layer always holds exactly the most recent `max_convo` appended
messages in original relative order (so its length never exceeds
`max_convo`, and the oldest entries are dropped first).  The restriction to
`max_convo ≥ 1` is forced: with `max_convo = 0` the trimming slice
`self._convo_messages[-0:]` keeps the whole list. -/
theorem claim6_convo_fifo (st0 : ContextManager) (ops : List (Bool × List Char))
    (h0 : st0.convo_messages = []) (hmc : 1 ≤ st0.max_convo) :
    (applyAppends st0 ops).convo_messages =
      (appendedMessages ops).drop (ops.length - st0.max_convo) ∧
    (applyAppends st0 ops).convo_messages.length ≤ st0.max_convo := by
  have main : (applyAppends st0 ops).convo_messages =
      (appendedMessages ops).drop ((appendedMessages ops).length - st0.max_convo) := by
    induction ops using List.reverseRecOn with
    | nil => simpa [applyAppends, appendedMessages] using h0
    | append_singleton ops op ih =>
        rw [applyAppends_concat]
        have hmax : (applyAppends st0 ops).max_convo = st0.max_convo :=
          applyAppends_max_convo st0 ops
        have happ : appendedMessages (ops ++ [op]) =
            appendedMessages ops ++ [⟨if op.1 then "user" else "assistant", op.2⟩] := by
          simp [appendedMessages]
        have hlenA : (appendedMessages (ops ++ [op])).length =
            (appendedMessages ops).length + 1 := by
          simp [appendedMessages]
        have step : ∀ (r : String),
            (ContextManager.trim_convo
              { applyAppends st0 ops with
                convo_messages :=
                  (applyAppends st0 ops).convo_messages ++ [(⟨r, op.2⟩ : Message)] }).convo_messages =
            (appendedMessages ops ++ [(⟨r, op.2⟩ : Message)]).drop
              ((appendedMessages ops).length + 1 - st0.max_convo) := by
          intro r
          rw [trim_convo_convo]
          show (if (applyAppends st0 ops).max_convo <
                  ((applyAppends st0 ops).convo_messages ++ [(⟨r, op.2⟩ : Message)]).length then
                pyLast (applyAppends st0 ops).max_convo
                  ((applyAppends st0 ops).convo_messages ++ [(⟨r, op.2⟩ : Message)])
              else (applyAppends st0 ops).convo_messages ++ [(⟨r, op.2⟩ : Message)]) = _
          rw [ih, hmax]
          exact trim_append_drop st0.max_convo hmc (appendedMessages ops) ⟨r, op.2⟩
        rw [happ]
        simp only [List.length_append, List.length_singleton]
        cases hop : op.1
        · rw [if_neg Bool.false_ne_true, if_neg Bool.false_ne_true]
          exact step "assistant"
        · rw [if_pos rfl, if_pos rfl]
          exact step "user"
  have hlenA : (appendedMessages ops).length = ops.length := by simp [appendedMessages]
  refine ⟨by rw [main, hlenA], ?_⟩
  rw [main, List.length_drop]
  omega

/-- C6 counterexample: with configured maximum `max_convo = 0` (the
environment variable `MAX_CONVO_MESSAGES` is read unvalidated), a single
append (`N = 1 > 0 = max_convo`) leaves the conversation layer with 1 entry:
the Python trim slice `[-0:]` keeps everything, so the layer's length is not
at most `max_convo`. -/
theorem claim6_counterexample :
    (applyAppends (ContextManager.init "s".toList 10 10 0)
        [(true, "hi".toList)]).convo_messages.length = 1 ∧
    ¬ ((applyAppends (ContextManager.init "s".toList 10 10 0)
        [(true, "hi".toList)]).convo_messages.length ≤
          (ContextManager.init "s".toList 10 10 0).max_convo) := by
  constructor <;> decide

/-- C6 amended-claim witness: `max_convo = 2`, three appends → the layer holds
exactly the last two messages in order. -/
theorem claim6_convo_fifo_witness :
    (applyAppends (ContextManager.init "s".toList 10 10 2)
        [(true, "a".toList), (false, "b".toList), (true, "c".toList)]).convo_messages =
      (appendedMessages [(true, "a".toList), (false, "b".toList), (true, "c".toList)]).drop
        (3 - 2) ∧
    (applyAppends (ContextManager.init "s".toList 10 10 2)
        [(true, "a".toList), (false, "b".toList), (true, "c".toList)]).convo_messages.length ≤ 2 :=
  claim6_convo_fifo (ContextManager.init "s".toList 10 10 2)
    [(true, "a".toList), (false, "b".toList), (true, "c".toList)] rfl (by decide)

/-! ## C5: head+tail truncation idempotence -/

theorem apply_file_budget_of_short (B : Nat) (c : List Char) (h : c.length ≤ B * 4) :
    ContextManager.apply_file_budget B c = c := by
  unfold ContextManager.apply_file_budget
  rw [if_pos h]

theorem truncMarker_length : truncMarker.length = 40 := by decide

/-- C5 counterexample: with per-document budget `max_file_tokens = 25`
(`max_chars = 100`, `half = 50`), the tail slice `content[-(half - 100):]`
is `content[50:]`, so truncating a 101-character text *grows* it to 141
characters and a second truncation produces a different (181-character)
result: `truncate(truncate(t)) ≠ truncate(t)`. -/
theorem claim5_counterexample :
    ContextManager.apply_file_budget 25
        (ContextManager.apply_file_budget 25 (List.replicate 101 'a')) ≠
      ContextManager.apply_file_budget 25 (List.replicate 101 'a') := by
  decide

/-- C5 amended: the head+tail truncation is idempotent for every text
provided the per-document budget satisfies `max_file_tokens ≥ 51`
(equivalently `half = max_chars / 2 > 100`, so the Python tail index
`-(half - 100)` is genuinely negative); the counterexample shows the
restriction is necessary. -/
theorem claim5_truncation_idempotent (B : Nat) (c : List Char) (hB : 51 ≤ B) :
    ContextManager.apply_file_budget B (ContextManager.apply_file_budget B c) =
      ContextManager.apply_file_budget B c := by
  by_cases h : c.length ≤ B * 4
  · rw [apply_file_budget_of_short B c h]
    exact apply_file_budget_of_short B c h
  · push_neg at h
    have hneg : ¬ (c.length ≤ B * 4) := by omega
    have hr : ContextManager.apply_file_budget B c =
        c.take (B * 4 / 2) ++ truncMarker ++
          pySliceFrom c (-(((B * 4 / 2 : Nat) : Int) - 100)) := by
      unfold ContextManager.apply_file_budget
      rw [if_neg hneg]
    have hi : ¬ (0 ≤ -(((B * 4 / 2 : Nat) : Int) - 100)) := by
      have hhalf : B * 4 / 2 = B * 2 := by omega
      rw [hhalf]
      push_cast
      omega
    have hslice : pySliceFrom c (-(((B * 4 / 2 : Nat) : Int) - 100)) =
        c.drop (((c.length : Int) + -(((B * 4 / 2 : Nat) : Int) - 100)).toNat) := by
      unfold pySliceFrom
      rw [if_neg hi]
    have hlenslice : (pySliceFrom c (-(((B * 4 / 2 : Nat) : Int) - 100))).length =
        B * 2 - 100 := by
      rw [hslice, List.length_drop]
      omega
    have hlen : (ContextManager.apply_file_budget B c).length = B * 4 - 60 := by
      rw [hr]
      simp only [List.length_append, List.length_take, truncMarker_length, hlenslice]
      omega
    exact apply_file_budget_of_short B _ (by omega)

/-- C5 amended-claim witness at budget 51 and a concrete 205-character text. -/
theorem claim5_truncation_idempotent_witness :
    51 ≤ 51 ∧
    ContextManager.apply_file_budget 51
        (ContextManager.apply_file_budget 51 (List.replicate 205 'b')) =
      ContextManager.apply_file_budget 51 (List.replicate 205 'b') :=
  ⟨by decide, claim5_truncation_idempotent 51 (List.replicate 205 'b') (by decide)⟩

/-! ## C4: truncation marker -/

theorem containsSub_of_startsWithL (p s : List Char) (h : startsWithL p s = true) :
    containsSub p s = true := by
  cases s with
  | nil => simpa [containsSub] using h
  | cons c s0 => simp [containsSub, h]

theorem containsSub_append_left (p x s : List Char) (h : containsSub p s = true) :
    containsSub p (x ++ s) = true := by
  induction x with
  | nil => simpa using h
  | cons c x0 ih => simp [containsSub, ih]

theorem emergencyFile_eq_chop (B : Nat) (m : Message) :
    emergencyFile B m = ⟨m.role, m.content.take (B * 2)⟩ := by
  have h : (m.content.take (B * 2)).length ≤ B * 4 := by
    rw [List.length_take]; omega
  unfold emergencyFile
  rw [apply_file_budget_of_short B _ h]

set_option maxRecDepth 100000

/-- C4 counterexample: system `"ssss"`, `max_total = 10`, `max_file_tokens =
50`, one 300-character document (cut and marker-tagged at upsert: the stored
layer reads `[true]` for marker presence) and one conversation turn.
`build_messages` drains the conversation, then re-truncates the document by
chopping its stored text to `max_file_tokens * 2 = 100` characters — which
cuts the marker away: no entry of the result contains the marker, although
the document entry (length 100 of 457 stored characters) has been cut. -/
theorem claim4_counterexample :
    ((((ContextManager.init "ssss".toList 10 50 10).upsert_file "a".toList
        (List.replicate 300 'b')).add_user "hello".toList).build_messages none).2.map
        (fun p => containsSub truncMarker p.2) = [false, false] ∧
    ((ContextManager.init "ssss".toList 10 50 10).upsert_file "a".toList
        (List.replicate 300 'b')).file_messages.map
        (fun m => containsSub truncMarker m.content) = [true] ∧
    ((((ContextManager.init "ssss".toList 10 50 10).upsert_file "a".toList
        (List.replicate 300 'b')).add_user "hello".toList).build_messages none).2.map
        (fun p => p.2.length) = [4, 100] ∧
    ((ContextManager.init "ssss".toList 10 50 10).upsert_file "a".toList
        (List.replicate 300 'b')).file_messages.map (fun m => m.content.length) = [457] := by
  refine ⟨?_, ?_, ?_, ?_⟩ <;> decide

/-- C4 amended: content cut by the per-document truncation (at upsert) always
contains the explicit truncation marker; the emergency re-truncation inside
`build_messages`, however, only chops each stored entry to
`max_file_tokens * 2` characters and inserts no marker (so the marker present
in a stored entry can be cut away, as the counterexample shows). -/
theorem claim4_truncation_marker (B : Nat) (c : List Char) (m : Message)
    (h : B * 4 < c.length) :
    containsSub truncMarker (ContextManager.apply_file_budget B c) = true ∧
    emergencyFile B m = ⟨m.role, m.content.take (B * 2)⟩ := by
  refine ⟨?_, emergencyFile_eq_chop B m⟩
  have hneg : ¬ (c.length ≤ B * 4) := by omega
  have hr : ContextManager.apply_file_budget B c =
      c.take (B * 4 / 2) ++ truncMarker ++
        pySliceFrom c (-(((B * 4 / 2 : Nat) : Int) - 100)) := by
    unfold ContextManager.apply_file_budget
    rw [if_neg hneg]
  rw [hr, List.append_assoc]
  exact containsSub_append_left _ _ _
    (containsSub_of_startsWithL _ _ (startsWithL_append_self _ _))

/-- C4 amended-claim witness: budget 50, a concrete 300-character text and a
concrete stored entry. -/
theorem claim4_truncation_marker_witness :
    containsSub truncMarker
        (ContextManager.apply_file_budget 50 (List.replicate 300 'b')) = true ∧
    emergencyFile 50 ⟨"user", List.replicate 300 'b'⟩ =
      ⟨"user", (List.replicate 300 'b').take (50 * 2)⟩ :=
  claim4_truncation_marker 50 (List.replicate 300 'b') ⟨"user", List.replicate 300 'b'⟩
    (by decide)

/-! ## C1: global budget enforcement in `build_messages` -/

theorem buildTotal_le_of_emergency_fits (sys : Message) (files convo E : List Message)
    (mt mft : Nat)
    (h : sys.token_estimate + sumTokens (files.map (emergencyFile mft)) + sumTokens E ≤ mt) :
    sumPairTokens (([sys] ++
        (if mt < sys.token_estimate + sumTokens files + sumTokens E +
            sumTokens (dropOldestLoop mt
              (sys.token_estimate + sumTokens files + sumTokens E) convo) then
          files.map (emergencyFile mft) else files) ++
        dropOldestLoop mt (sys.token_estimate + sumTokens files + sumTokens E) convo ++
        E).map Message.to_dict) ≤ mt := by
  by_cases hg : mt < sys.token_estimate + sumTokens files + sumTokens E +
      sumTokens (dropOldestLoop mt (sys.token_estimate + sumTokens files + sumTokens E) convo)
  · have hnil : dropOldestLoop mt
        (sys.token_estimate + sumTokens files + sumTokens E) convo = [] :=
      dropOldestLoop_over_budget_nil _ _ _ hg
    rw [if_pos hg, hnil, sumPairTokens_map_to_dict]
    simp only [sumTokens_append, List.append_nil]
    simp only [sumTokens]
    omega
  · rw [if_neg hg, sumPairTokens_map_to_dict]
    push_neg at hg
    simp only [sumTokens_append]
    simp only [sumTokens]
    omega

/-- C1 counterexample: system `"ssss"` alone estimates 1 token ≤ `max_total =
1`, yet with one loaded document and no ephemeral text, `build_messages`
(after draining the already-empty conversation and emergency-shrinking the
document) still returns a list whose total estimate is 2 > `max_total`: the
degrade path never drops documents or the ephemeral message, and the source
returns the over-budget list silently. -/
theorem claim1_counterexample :
    ((ContextManager.init "ssss".toList 1 1 5).upsert_file
        "a".toList "bbbb".toList).system.token_estimate ≤
      ((ContextManager.init "ssss".toList 1 1 5).upsert_file
        "a".toList "bbbb".toList).max_total ∧
    ¬ (sumPairTokens (((ContextManager.init "ssss".toList 1 1 5).upsert_file
          "a".toList "bbbb".toList).build_messages none).2 ≤
        ((ContextManager.init "ssss".toList 1 1 5).upsert_file
          "a".toList "bbbb".toList).max_total) := by
  constructor <;> decide

/-- C1 amended: `build_messages`'s total estimated token count is within the
global budget whenever the irreducible layers fit — i.e. whenever the system
message plus the *emergency-truncated* document layer plus the ephemeral
message together estimate at most `max_total` (the condition the
counterexample forces; "system alone fits" is not sufficient).  The system
message is always present verbatim at the head of the output. -/
theorem claim1_build_within_budget (st : ContextManager) (eph : Option (List Char))
    (h : st.system.token_estimate +
        sumTokens (st.file_messages.map (emergencyFile st.max_file_tokens)) +
        sumTokens (ephemeralList eph) ≤ st.max_total) :
    sumPairTokens (st.build_messages eph).2 ≤ st.max_total ∧
    (st.build_messages eph).2.head? = some st.system.to_dict :=
  ⟨buildTotal_le_of_emergency_fits st.system st.file_messages st.convo_messages
      (ephemeralList eph) st.max_total st.max_file_tokens h, rfl⟩

/-- C1 amended-claim witness at a concrete state (budget 100, one document,
two conversation turns, an ephemeral message). -/
theorem claim1_build_within_budget_witness :
    sumPairTokens (((((ContextManager.init "ssss".toList 100 1 5).upsert_file
        "a".toList "bbbb".toList).add_user "hi".toList).add_assistant
        "yo".toList).build_messages (some "go".toList)).2 ≤ 100 ∧
    (((((ContextManager.init "ssss".toList 100 1 5).upsert_file
        "a".toList "bbbb".toList).add_user "hi".toList).add_assistant
        "yo".toList).build_messages (some "go".toList)).2.head? =
      some (⟨"system", "ssss".toList⟩ : Message).to_dict :=
  claim1_build_within_budget
    ((((ContextManager.init "ssss".toList 100 1 5).upsert_file
        "a".toList "bbbb".toList).add_user "hi".toList).add_assistant "yo".toList)
    (some "go".toList) (by decide)

/-! ## C7: removal and eviction protection -/

theorem contains_filter_ne (l : List (List Char)) (p : List Char) :
    (l.filter (fun q => q ≠ p)).contains p = false := by
  simp

theorem remove_file_forced (abspathF : List Char → List Char) (st : ContextManager)
    (id : List Char) :
    ContextManager.remove_file abspathF st id true =
      ({ st with
          file_messages := st.file_messages.filter (fun m => !(matchesTag (abspathF id) m))
          pinned_files := st.pinned_files.filter (fun q => q ≠ abspathF id) }, true) := by
  unfold ContextManager.remove_file
  simp

/-- C7 counterexample: with the working directory at the filesystem root,
`os.path.abspath` maps the relative identifier `"a"` to `"/a"` (modelled by
prepending `'/'`).  `upsert_file` stores entries under the *raw* path, so
after `upsert_file("a", ...)`, `remove_file("a", force=true)` filters the
layer by the canonicalized tag `"/a"`, removes nothing, and still returns
true: an entry for `"a"` survives a forced removal, contradicting the claim
that `remove_document(id, force=true)` removes any entry for `id`. -/
theorem claim7_counterexample :
    (ContextManager.remove_file (fun s => '/' :: s)
        ((ContextManager.init "s".toList 100 100 10).upsert_file "a".toList "x".toList)
        "a".toList true).2 = true ∧
    (ContextManager.remove_file (fun s => '/' :: s)
        ((ContextManager.init "s".toList 100 100 10).upsert_file "a".toList "x".toList)
        "a".toList true).1.file_messages.map (fun m => matchesTag "a".toList m) = [true] := by
  constructor <;> decide

/-- C7 amended: `remove_file` acts on the canonicalized identifier
`abspath(id)`.  (1) If `id` is pinned (i.e. `abspath(id)` is in the pin set)
and `force` is false, the call returns false and the whole state is
unchanged.  (2) With `force = true` the call returns true, afterwards no
entry carries the canonicalized identifier's tag (and, when `abspath(id) =
id` — the case the counterexample forces us to single out — no entry for
`id` at all), and `id` is no longer pinned.  (3) On an unpinned (in
particular absent) `id`, an unforced removal returns true. -/
theorem claim7_remove_and_pin (abspathF : List Char → List Char) (st : ContextManager)
    (id : List Char) :
    (ContextManager.is_pinned abspathF st id = true →
      ContextManager.remove_file abspathF st id false = (st, false)) ∧
    ((ContextManager.remove_file abspathF st id true).2 = true ∧
      (∀ m ∈ (ContextManager.remove_file abspathF st id true).1.file_messages,
        matchesTag (abspathF id) m = false) ∧
      ContextManager.is_pinned abspathF
        (ContextManager.remove_file abspathF st id true).1 id = false ∧
      (abspathF id = id →
        ∀ m ∈ (ContextManager.remove_file abspathF st id true).1.file_messages,
          matchesTag id m = false)) ∧
    (ContextManager.is_pinned abspathF st id = false →
      (ContextManager.remove_file abspathF st id false).2 = true) := by
  have hfor := remove_file_forced abspathF st id
  refine ⟨?_, ⟨?_, ?_, ?_, ?_⟩, ?_⟩
  · intro hpin
    rw [ContextManager.is_pinned] at hpin
    have hmem : abspathF id ∈ st.pinned_files := by simpa using hpin
    unfold ContextManager.remove_file
    simp [hmem]
  · rw [hfor]
  · intro m hm
    rw [hfor] at hm
    have := List.of_mem_filter hm
    simpa using this
  · rw [hfor, ContextManager.is_pinned]
    exact contains_filter_ne st.pinned_files (abspathF id)
  · intro hid m hm
    rw [hfor] at hm
    have := List.of_mem_filter hm
    rw [hid] at this
    simpa using this
  · intro hnp
    rw [ContextManager.is_pinned] at hnp
    have hmem : abspathF id ∉ st.pinned_files := by simpa using hnp
    unfold ContextManager.remove_file
    simp [hmem]

/-- A concrete state in which `"a"` is loaded and pinned (canonicalization is
the identity). -/
def pinnedStateExample : ContextManager :=
  (ContextManager.pin_file (fun s => s)
    ((ContextManager.init "s".toList 100 100 10).upsert_file "a".toList "x".toList)
    "a".toList).1

/-- C7 amended-claim witness at `pinnedStateExample` with identity
canonicalization. -/
theorem claim7_remove_and_pin_witness :
    ContextManager.remove_file (fun s => s) pinnedStateExample "a".toList false =
      (pinnedStateExample, false) ∧
    (ContextManager.remove_file (fun s => s) pinnedStateExample "a".toList true).2 = true ∧
    ContextManager.is_pinned (fun s => s)
      (ContextManager.remove_file (fun s => s) pinnedStateExample "a".toList true).1
      "a".toList = false :=
  ⟨(claim7_remove_and_pin (fun s => s) pinnedStateExample "a".toList).1 (by decide),
    (claim7_remove_and_pin (fun s => s) pinnedStateExample "a".toList).2.1.1,
    (claim7_remove_and_pin (fun s => s) pinnedStateExample "a".toList).2.1.2.2.1⟩

/-! ## C2: retry with exponential backoff in `NvidiaProvider.stream` -/

theorem streamAttempts_all_transient (d : ℚ) (g : Nat → AttemptOutcome) :
    ∀ (n k : Nat) (le : Option (List Char)),
      (∀ i, i < n → ∃ e, g (k + i) = AttemptOutcome.transientFailure e) →
      ∃ le2 ws, streamAttempts d g n k le = ⟨ws, StreamResult.retriesExhausted le2⟩ := by
  intro n
  induction n with
  | zero => exact fun k le _ => ⟨le, [], rfl⟩
  | succ n ih =>
      intro k le h
      obtain ⟨e, he⟩ := h 0 (Nat.succ_pos n)
      rw [Nat.add_zero] at he
      obtain ⟨le2, ws, hrec⟩ := ih (k + 1) (some e)
        (fun i hi => by
          obtain ⟨e2, he2⟩ := h (i + 1) (by omega)
          exact ⟨e2, by rw [← he2]; congr 1; omega⟩)
      refine ⟨le2, d * 2 ^ k :: ws, ?_⟩
      rw [streamAttempts, he]
      simp [hrec]

/-- C2: with `max_retries = 3`, two transient failures followed by a success
produce exactly two backoff waits of `retry_delay * 2^0` and
`retry_delay * 2^1` and the stream yields exactly the successful attempt's
fragments with no error; a non-transient `APIError` on the first attempt is
re-raised immediately with no wait; and when every attempt fails
transiently, the call ends in the final "all retries failed" error. -/
theorem claim2_retry_backoff (d : ℚ) (f : Nat → AttemptOutcome)
    (cs : List StreamChunk) (e0 e1 : List Char)
    (h0 : f 0 = AttemptOutcome.transientFailure e0)
    (h1 : f 1 = AttemptOutcome.transientFailure e1)
    (h2 : f 2 = AttemptOutcome.success cs) :
    NvidiaProvider.stream 3 d f = ⟨[d * 2 ^ 0, d * 2 ^ 1], StreamResult.ok cs⟩ ∧
    (∀ (g : Nat → AttemptOutcome) (e : List Char) (mr : Nat), 1 ≤ mr →
      g 0 = AttemptOutcome.fatalApiFailure e →
      NvidiaProvider.stream mr d g = ⟨[], StreamResult.apiError e⟩) ∧
    (∀ (g : Nat → AttemptOutcome) (mr : Nat),
      (∀ i, i < mr → ∃ e, g i = AttemptOutcome.transientFailure e) →
      ∃ le ws, NvidiaProvider.stream mr d g = ⟨ws, StreamResult.retriesExhausted le⟩) := by
  refine ⟨?_, ?_, ?_⟩
  · show streamAttempts d f 3 0 none = _
    simp [streamAttempts, h0, h1, h2]
  · intro g e mr hmr hg
    obtain ⟨mr0, rfl⟩ : ∃ mr0, mr = mr0 + 1 := ⟨mr - 1, by omega⟩
    show streamAttempts d g (mr0 + 1) 0 none = _
    rw [streamAttempts, hg]
  · intro g mr hg
    obtain ⟨le, ws, hs⟩ := streamAttempts_all_transient d g mr 0 none
      (fun i hi => by simpa using hg i hi)
    exact ⟨le, ws, hs⟩

/-- C2 witness: a concrete attempt function failing transiently twice then
succeeding, with `retry_delay = 3/2`. -/
theorem claim2_retry_backoff_witness :
    NvidiaProvider.stream 3 (3 / 2 : ℚ)
        (fun n => match n with
          | 0 => AttemptOutcome.transientFailure "conn".toList
          | 1 => AttemptOutcome.transientFailure "rate".toList
          | _ => AttemptOutcome.success [⟨"hi".toList, "th".toList⟩]) =
      ⟨[(3 / 2 : ℚ) * 2 ^ 0, (3 / 2 : ℚ) * 2 ^ 1],
        StreamResult.ok [⟨"hi".toList, "th".toList⟩]⟩ :=
  (claim2_retry_backoff (3 / 2 : ℚ)
      (fun n => match n with
        | 0 => AttemptOutcome.transientFailure "conn".toList
        | 1 => AttemptOutcome.transientFailure "rate".toList
        | _ => AttemptOutcome.success [⟨"hi".toList, "th".toList⟩])
      [⟨"hi".toList, "th".toList⟩] "conn".toList "rate".toList rfl rfl rfl).1

/-! ## C9: `SessionManager.send` finalization -/

/-- C9: the finalize step of `send` is independent of the terminal outcome
(completed, interrupted, or provider failure): only the display trace
differs.  If the accumulated content is non-empty it is appended as exactly
one assistant turn (the layer's last entry; when there is room it is a plain
append) and returned; if it is empty, the context is left exactly as after
the optional user-append and `None` is returned. -/
theorem claim9_send_finalize (st : ContextManager) (u : List Char) (r : Bool)
    (chunks : List StreamChunk) (e e2 : StreamEnd) :
    ((SessionManager.send st u r chunks e).ctx = (SessionManager.send st u r chunks e2).ctx ∧
      (SessionManager.send st u r chunks e).ret = (SessionManager.send st u r chunks e2).ret) ∧
    (accumulateContent chunks ≠ [] →
      (SessionManager.send st u r chunks e).ret = some (accumulateContent chunks) ∧
      (SessionManager.send st u r chunks e).ctx.convo_messages.getLast? =
        some ⟨"assistant", accumulateContent chunks⟩ ∧
      ((if r then st.add_user u else st).convo_messages.length <
          (if r then st.add_user u else st).max_convo →
        (SessionManager.send st u r chunks e).ctx.convo_messages =
          (if r then st.add_user u else st).convo_messages ++
            [⟨"assistant", accumulateContent chunks⟩])) ∧
    (accumulateContent chunks = [] →
      (SessionManager.send st u r chunks e).ctx = (if r then st.add_user u else st) ∧
      (SessionManager.send st u r chunks e).ret = none) := by
  have hctx : ∀ (e3 : StreamEnd), (SessionManager.send st u r chunks e3).ctx =
      (if accumulateContent chunks ≠ [] then
        (if r then st.add_user u else st).add_assistant (accumulateContent chunks)
      else (if r then st.add_user u else st)) := by
    intro e3
    rfl
  have hret : ∀ (e3 : StreamEnd), (SessionManager.send st u r chunks e3).ret =
      (if accumulateContent chunks = [] then none else some (accumulateContent chunks)) := by
    intro e3
    rfl
  refine ⟨⟨by rw [hctx, hctx], by rw [hret, hret]⟩, ?_, ?_⟩
  · intro hne
    refine ⟨by rw [hret, if_neg hne], ?_, ?_⟩
    · rw [hctx, if_pos hne]
      set st1 := if r then st.add_user u else st with hst1
      show (ContextManager.trim_convo _).convo_messages.getLast? = _
      rw [trim_convo_convo]
      by_cases hg : st1.max_convo <
          (st1.convo_messages ++ [(⟨"assistant", accumulateContent chunks⟩ : Message)]).length
      · rw [if_pos hg]
        unfold pyLast
        by_cases hz : st1.max_convo = 0
        · rw [if_pos hz, List.getLast?_concat]
        · rw [if_neg hz]
          have hlen : (st1.convo_messages ++
              [(⟨"assistant", accumulateContent chunks⟩ : Message)]).length -
                st1.max_convo ≤ st1.convo_messages.length := by
            simp only [List.length_append, List.length_singleton]
            omega
          rw [List.drop_append_of_le_length hlen, List.getLast?_concat]
      · rw [if_neg hg, List.getLast?_concat]
    · intro hroom
      rw [hctx, if_pos hne]
      set st1 := if r then st.add_user u else st with hst1
      show (ContextManager.trim_convo _).convo_messages = _
      rw [trim_convo_convo]
      rw [if_neg]
      simp only [List.length_append, List.length_singleton]
      omega
  · intro hemp
    refine ⟨?_, by rw [hret, if_pos hemp]⟩
    rw [hctx, if_neg (by simpa using hemp)]

/-- C9 witness: an interrupted stream still records and returns the
accumulated content. -/
theorem claim9_send_finalize_witness :
    (SessionManager.send (ContextManager.init "s".toList 10 10 5) "hi".toList true
        [⟨"ok".toList, "r".toList⟩] StreamEnd.interrupted).ret =
      some (accumulateContent [⟨"ok".toList, "r".toList⟩]) :=
  ((claim9_send_finalize (ContextManager.init "s".toList 10 10 5) "hi".toList true
      [⟨"ok".toList, "r".toList⟩] StreamEnd.interrupted StreamEnd.completed).2.1
    (by decide)).1

/-! ## C8: per-document uniqueness under upsert sequences -/

/-- Fold a sequence of `upsert_file(path, content)` calls. -/
def applyUpserts (st : ContextManager) (ops : List (List Char × List Char)) : ContextManager :=
  ops.foldl (fun s op => s.upsert_file op.1 op.2) st

/-- The content of the last upsert in `ops` whose path is `q`, if any. -/
def latestContent (q : List Char) (ops : List (List Char × List Char)) : Option (List Char) :=
  ops.foldl (fun acc op => if op.1 = q then some op.2 else acc) none

theorem startsWith_nl_key (q : List Char) : ∀ (p b : List Char), '\n' ∉ p → '\n' ∉ q →
    (startsWithL (q ++ ['\n']) (p ++ '\n' :: b) = true ↔ q = p) := by
  induction q with
  | nil =>
      intro p b hp _
      cases p with
      | nil => simp [startsWithL]
      | cons a p0 =>
          have ha : '\n' ≠ a := fun h => hp (by simp [← h])
          simp [startsWithL, ha]
  | cons c q0 ih =>
      intro p b hp hq
      have hc : c ≠ '\n' := fun h => hq (by simp [h])
      cases p with
      | nil => simp [startsWithL, hc]
      | cons a p0 =>
          have hp0 : '\n' ∉ p0 := fun h => hp (List.mem_cons_of_mem _ h)
          have hq0 : '\n' ∉ q0 := fun h => hq (List.mem_cons_of_mem _ h)
          simp [startsWithL, ih p0 b hp0 hq0]

theorem matchesTag_self (p b : List Char) (r : String) :
    matchesTag p ⟨r, projectFileTag ++ p ++ ['\n'] ++ b⟩ = true := by
  unfold matchesTag
  exact startsWithL_append_self (projectFileTag ++ p ++ ['\n']) b

theorem matchesTag_entry_iff (p q b : List Char) (r : String)
    (hp : '\n' ∉ p) (hq : '\n' ∉ q) :
    (matchesTag q ⟨r, projectFileTag ++ p ++ ['\n'] ++ b⟩ = true ↔ q = p) := by
  unfold matchesTag
  have hshape : projectFileTag ++ p ++ ['\n'] ++ b =
      projectFileTag ++ (p ++ '\n' :: b) := by
    simp [List.append_assoc]
  have hpat : projectFileTag ++ q ++ ['\n'] = projectFileTag ++ (q ++ ['\n']) := by
    simp [List.append_assoc]
  rw [hshape, hpat, startsWithL_cancel]
  exact startsWith_nl_key q p b hp hq

theorem countP_filter_not {α : Type} (pr : α → Bool) (l : List α) :
    (l.filter (fun x => !(pr x))).countP pr = 0 := by
  induction l with
  | nil => rfl
  | cons a l ih =>
      by_cases h : pr a
      · simpa [List.filter, h] using ih
      · simpa [List.filter, List.countP_cons, h] using ih

theorem upsert_countP (st : ContextManager) (p c q : List Char)
    (hp : '\n' ∉ p) (hq : '\n' ∉ q)
    (hcount : st.file_messages.countP (fun m => matchesTag q m) ≤ 1) :
    (st.upsert_file p c).file_messages.countP (fun m => matchesTag q m) ≤ 1 := by
  unfold ContextManager.upsert_file
  rw [List.countP_append]
  by_cases hpq : q = p
  · subst hpq
    rw [countP_filter_not]
    simp only [List.countP_cons, List.countP_nil]
    split <;> omega
  · have hnew : matchesTag q ⟨"user", projectFileTag ++ p ++ ['\n'] ++
        ContextManager.apply_file_budget st.max_file_tokens c⟩ = false := by
      rw [← Bool.not_eq_true]
      intro hcontra
      exact hpq ((matchesTag_entry_iff p q _ "user" hp hq).mp hcontra)
    have hfil := countP_filter_le (fun m => matchesTag q m)
      (fun m => !(matchesTag p m))
      st.file_messages
    have hsing : (([⟨"user", projectFileTag ++ p ++ ['\n'] ++
        ContextManager.apply_file_budget st.max_file_tokens c⟩] : List Message).countP
        (fun m => matchesTag q m)) = 0 := by
      simp only [List.countP_cons, List.countP_nil, hnew]
      rfl
    rw [hsing]
    omega

theorem applyUpserts_countP (ops : List (List Char × List Char)) :
    ∀ (st : ContextManager) (q : List Char),
      (∀ op ∈ ops, '\n' ∉ op.1) → '\n' ∉ q →
      st.file_messages.countP (fun m => matchesTag q m) ≤ 1 →
      (applyUpserts st ops).file_messages.countP (fun m => matchesTag q m) ≤ 1 := by
  induction ops with
  | nil => exact fun st q _ _ h => h
  | cons op ops ih =>
      intro st q hops hq hst
      exact ih (st.upsert_file op.1 op.2) q
        (fun o ho => hops o (List.mem_cons_of_mem _ ho)) hq
        (upsert_countP st op.1 op.2 q (hops op (List.mem_cons_self _ _)) hq hst)

theorem applyUpserts_concat (st : ContextManager) (ops : List (List Char × List Char))
    (op : List Char × List Char) :
    applyUpserts st (ops ++ [op]) = (applyUpserts st ops).upsert_file op.1 op.2 := by
  simp [applyUpserts, List.foldl_append]

theorem latestContent_concat (q : List Char) (ops : List (List Char × List Char))
    (op : List Char × List Char) :
    latestContent q (ops ++ [op]) =
      if op.1 = q then some op.2 else latestContent q ops := by
  simp [latestContent, List.foldl_append]

theorem applyUpserts_mft (ops : List (List Char × List Char)) :
    ∀ (st : ContextManager), (applyUpserts st ops).max_file_tokens = st.max_file_tokens := by
  induction ops with
  | nil => exact fun st => rfl
  | cons op ops ih => exact fun st => ih (st.upsert_file op.1 op.2)

theorem applyUpserts_latest (ops : List (List Char × List Char)) :
    ∀ (st : ContextManager) (q X : List Char), '\n' ∉ q →
      (∀ op ∈ ops, '\n' ∉ op.1) →
      latestContent q ops = some X →
      ((∀ m ∈ (applyUpserts st ops).file_messages, matchesTag q m = true →
          m = ⟨"user", projectFileTag ++ q ++ ['\n'] ++
            ContextManager.apply_file_budget st.max_file_tokens X⟩) ∧
        (∃ m, m ∈ (applyUpserts st ops).file_messages ∧ matchesTag q m = true)) := by
  induction ops using List.reverseRecOn with
  | nil => intro st q X _ _ hlat; exact absurd hlat (by simp [latestContent])
  | append_singleton ops op ih =>
      intro st q X hq hops hlat
      have hp : '\n' ∉ op.1 := hops op (by simp)
      have hops0 : ∀ o ∈ ops, '\n' ∉ o.1 := fun o ho => hops o (by simp [ho])
      rw [latestContent_concat] at hlat
      rw [applyUpserts_concat]
      by_cases hpq : op.1 = q
      · rw [if_pos hpq] at hlat
        have hX : X = op.2 := by injection hlat with h; exact h.symm
        subst hX
        subst hpq
        constructor
        · intro m hm hmq
          unfold ContextManager.upsert_file at hm
          rcases List.mem_append.mp hm with hmf | hme
          · exfalso
            have hfalse := List.of_mem_filter hmf
            simp only [Bool.not_eq_true'] at hfalse
            rw [hmq] at hfalse
            simp at hfalse
          · rw [List.mem_singleton.mp hme, applyUpserts_mft]
        · refine ⟨⟨"user", projectFileTag ++ op.1 ++ ['\n'] ++
            ContextManager.apply_file_budget (applyUpserts st ops).max_file_tokens op.2⟩, ?_, ?_⟩
          · unfold ContextManager.upsert_file
            exact List.mem_append.mpr (Or.inr (List.mem_singleton.mpr rfl))
          · exact matchesTag_self op.1 _ "user"
      · rw [if_neg hpq] at hlat
        obtain ⟨ihAll, m0, hm0, hm0q⟩ := ih st q X hq hops0 hlat
        constructor
        · intro m hm hmq
          unfold ContextManager.upsert_file at hm
          rcases List.mem_append.mp hm with hmf | hme
          · exact ihAll m (List.mem_of_mem_filter hmf) hmq
          · exfalso
            rw [List.mem_singleton.mp hme] at hmq
            exact hpq (((matchesTag_entry_iff op.1 q _ "user" hp hq).mp hmq).symm)
        · refine ⟨m0, ?_, hm0q⟩
          unfold ContextManager.upsert_file
          refine List.mem_append.mpr (Or.inl (List.mem_filter.mpr ⟨hm0, ?_⟩))
          have hm0form := ihAll m0 hm0 hm0q
          have hne : matchesTag op.1 (⟨"user", projectFileTag ++ q ++ ['\n'] ++
              ContextManager.apply_file_budget st.max_file_tokens X⟩ : Message) = false := by
            rw [← Bool.not_eq_true]
            intro hcontra
            exact hpq ((matchesTag_entry_iff q op.1 _ "user" hq hp).mp hcontra)
          rw [hm0form]
          simp only [hne, Bool.not_false]

/-- C8 counterexample: identifiers may contain a newline, and the tag test is
a prefix match on `"[PROJECT_FILE] " + id + "\n"`.  After
`upsert_file("a", "hello")` then `upsert_file("a\nb", "x")` (from a fresh
manager) the layer holds **two** entries matching identifier `"a"`'s tag
test — the second entry's first line is also `"[PROJECT_FILE] a"` — and
`file_paths()` reports the identifier `"a"` twice. -/
theorem claim8_counterexample :
    ((applyUpserts (ContextManager.init "s".toList 100 100 10)
        [("a".toList, "hello".toList),
          (['a', '\n', 'b'], "x".toList)]).file_messages.countP
        (fun m => matchesTag "a".toList m) = 2) ∧
    ((applyUpserts (ContextManager.init "s".toList 100 100 10)
        [("a".toList, "hello".toList),
          (['a', '\n', 'b'], "x".toList)]).file_paths =
      ["a".toList, "a".toList]) := by
  constructor <;> decide

/-- C8 amended: restricted to identifiers free of newline characters (which
the counterexample forces), after any sequence of `upsert_file` calls from a
fresh manager the document layer holds at most one entry per identifier, and
when the sequence contains an upsert of `q`, the unique entry matching `q`
carries exactly the post-truncation content of the latest
`upsert_file(q, X)`. -/
theorem claim8_upsert_uniqueness (st0 : ContextManager)
    (ops : List (List Char × List Char)) (q X : List Char)
    (h0 : st0.file_messages = [])
    (hops : ∀ op ∈ ops, '\n' ∉ op.1)
    (hq : '\n' ∉ q) :
    ((applyUpserts st0 ops).file_messages.countP (fun m => matchesTag q m) ≤ 1) ∧
    (latestContent q ops = some X →
      (∀ m ∈ (applyUpserts st0 ops).file_messages, matchesTag q m = true →
        m = ⟨"user", projectFileTag ++ q ++ ['\n'] ++
          ContextManager.apply_file_budget st0.max_file_tokens X⟩) ∧
      (∃ m, m ∈ (applyUpserts st0 ops).file_messages ∧ matchesTag q m = true)) := by
  refine ⟨?_, fun hlat => applyUpserts_latest ops st0 q X hq hops hlat⟩
  apply applyUpserts_countP ops st0 q hops hq
  rw [h0]
  simp

/-- C8 amended-claim witness: three upserts (`a`, `b`, then `a` again); the
layer holds at most one entry for `a` and an entry for `a` is present. -/
theorem claim8_upsert_uniqueness_witness :
    ((applyUpserts (ContextManager.init "s".toList 100 100 10)
        [("a".toList, "one".toList), ("b".toList, "two".toList),
          ("a".toList, "three".toList)]).file_messages.countP
        (fun m => matchesTag "a".toList m) ≤ 1) ∧
    (∃ m, m ∈ (applyUpserts (ContextManager.init "s".toList 100 100 10)
        [("a".toList, "one".toList), ("b".toList, "two".toList),
          ("a".toList, "three".toList)]).file_messages ∧
      matchesTag "a".toList m = true) :=
  ⟨(claim8_upsert_uniqueness (ContextManager.init "s".toList 100 100 10)
      [("a".toList, "one".toList), ("b".toList, "two".toList),
        ("a".toList, "three".toList)] "a".toList "three".toList rfl
      (by decide) (by decide)).1,
    ((claim8_upsert_uniqueness (ContextManager.init "s".toList 100 100 10)
      [("a".toList, "one".toList), ("b".toList, "two".toList),
        ("a".toList, "three".toList)] "a".toList "three".toList rfl
      (by decide) (by decide)).2 (by decide)).2⟩
